import Mathlib

/-!
Verification development for the file-compare repository.

Shallow embedding of the core components named by the specification:
the generic narrowing-algorithm generators (`base/compAlgos.py`), the
keep decision engine (`base/compKeep.py`), the greedy clustering of the
scanner (`base/compScan.py`), the group sanitizer (`base/compSanit.py`)
and the scan-log replay (`base/compCsv.py` / `base/compLog.py`).

Numeric stat projections are embedded as `Int` (every built-in
projection - name length, byte size, rounded timestamps, preference
index - is an integer, so Python `round` is the identity on them).
Filesystem paths are embedded as strings over a component model:
`Path.is_relative_to(loc)` holds when the components of `loc` are a
prefix of the components of the path.
-/

namespace FileCompare

/-- Lower-case a string (model of Python `str.lower` for ASCII data). -/
def strLower (s : String) : String := String.mk (s.data.map Char.toLower)

/-- Split a path string into its non-empty components, accumulating the
current (reversed) component; models `pathlib.Path.parts` for posix paths. -/
def splitPathAux : List Char → List Char → List String
  | [], cur => if cur.isEmpty then [] else [String.mk cur.reverse]
  | c :: cs, cur =>
    if c = '/' then
      (if cur.isEmpty then splitPathAux cs [] else String.mk cur.reverse :: splitPathAux cs [])
    else splitPathAux cs (c :: cur)

/-- Path components of a path string. -/
def splitPath (s : String) : List String := splitPathAux s.data []

/-- Model of `Path.is_relative_to`: the components of `loc` are a prefix of
the components of `p`. -/
def isRelativeTo (p loc : String) : Bool := (splitPath loc).isPrefixOf (splitPath p)

/-- File record used by the keep engine embedding: an identity (`id`,
standing for the canonical path used for flag storage), the path string,
the extension (`Path.suffix`), the stem length and a generic numeric
projection `val` used when instantiating generic algorithms. The mutable
`keep` flag lives outside the record, in a `KState`. -/
structure PFile where
  id : Nat
  path : String
  suffix : String
  stemLen : Nat
  val : Int
  deriving DecidableEq, Repr

/-- `KeepAlgorithms.pass_test_algo`: keep the files passing the test. -/
def passTestAlgo {F : Type} (test : F → Bool) : List F → List F :=
  fun files => files.filter test

/-- Loop body of `KeepAlgorithms.min_max_algo`'s inner `min_max_val`:
`res` is the running result list, the optional pair is the running Python
`range(round(curr - variance), round(curr + variance))` as `(start, stop)`.
A new extremal value resets the result and the band; otherwise the file is
appended when its value lies in the (half-open) band, resp. equals the
band's start when the variance is zero. -/
def minMaxGo {F : Type} (getValue : F → Int) (isMin : Bool) (v : Int) :
    List F → List F → Option (Int × Int) → List F
  | [], res, _ => res
  | f :: fs, res, rng =>
    match rng with
    | none => minMaxGo getValue isMin v fs [f] (some (getValue f - v, getValue f + v))
    | some (lo, hi) =>
      if (if isMin then getValue f < lo else getValue f > hi) then
        minMaxGo getValue isMin v fs [f] (some (getValue f - v, getValue f + v))
      else
        if (if v = 0 then getValue f = lo else lo ≤ getValue f ∧ getValue f < hi) then
          minMaxGo getValue isMin v fs (res ++ [f]) (some (lo, hi))
        else
          minMaxGo getValue isMin v fs res (some (lo, hi))

/-- `KeepAlgorithms.min_max_algo`: keep the files whose projection is the
least (`isMin = true`) or greatest (`isMin = false`), with a `± variance`
band realised as a Python `range`. -/
def minMaxAlgo {F : Type} (getValue : F → Int) (isMin : Bool) (v : Int) :
    List F → List F :=
  fun files => minMaxGo getValue isMin v files [] none

/-- Score of a file against a preference array inside
`KeepAlgorithms.array_index_algo`: `len(array) - i` for the first entry `i`
the file matches, `-1` when it matches none. -/
def getIdx {F : Type} (array : List String) (fmv : F → String → Bool) (f : F) : Int :=
  match array.findIdx? (fun a => fmv f a) with
  | some i => (array.length : Int) - (i : Int)
  | none => -1

/-- `KeepAlgorithms.array_index_algo`: identity for an empty preference
array, otherwise `min_max_algo` over the preference score with zero
variance. The array entries are lower-cased, as in the source. -/
def arrayIndexAlgo {F : Type} (array : List String) (fmv : F → String → Bool)
    (isMin : Bool := true) : List F → List F :=
  if array.isEmpty then fun files => files
  else minMaxAlgo (getIdx (array.map strLower) fmv) isMin 0

/-- `FileAlgos.pref_exts` (compFilePlugin.py): preference-rank over
extensions, built with `array_index_algo`'s default `is_min` flag. -/
def prefExts (exts : List String) : List PFile → List PFile :=
  arrayIndexAlgo exts (fun f v => decide (strLower f.suffix = v))

/-- `FileAlgos.pref_loc` (compFilePlugin.py): preference-rank over root
locations, built with `array_index_algo`'s default `is_min` flag. -/
def prefLoc (roots : List String) : List PFile → List PFile :=
  arrayIndexAlgo roots (fun f v => isRelativeTo f.path v)

/-- `FileAlgos.max_size`: files with the largest size projection. -/
def maxSize (sizeVar : Int) : List PFile → List PFile :=
  minMaxAlgo (fun f => f.val) false sizeVar

/-- `FileAlgos.min_name`: files with the shortest stem. -/
def minName : List PFile → List PFile :=
  minMaxAlgo (fun f => (f.stemLen : Int)) true 0

/-! ## Keep decision engine (`base/compKeep.py`) -/

/-- Keep flags, indexed by file identity (`File.keep` is the only mutable
state the engine touches). -/
def KState : Type := Nat → Bool

/-- Set one keep flag (`file.keep = True`). -/
def setKeep (s : KState) (i : Nat) : KState := fun j => if j = i then true else s j

/-- `FileAutoKeeper.has_keep`: some file in the list already has its flag. -/
def hasKeep (s : KState) (files : List PFile) : Bool := files.any (fun f => s f.id)

/-- The algorithm `FileAutoKeeper.init` builds when `settings["rm_paths"]`
is configured: `pass_test_algo` over the test
`any(f.path.is_relative_to(loc) for loc in locs)`, exactly as in the
source (the test has no negation). -/
def notRmPath (rmPaths : List String) : List PFile → List PFile :=
  passTestAlgo (fun f => rmPaths.any (fun loc => isRelativeTo f.path loc))

/-- Mark the flag of every file in the list. -/
def markAll (files : List PFile) (s : KState) : KState :=
  files.foldl (fun t f => setKeep t f.id) s

/-- The whittling loop of `FileAutoKeeper.run`: starting from
`(matches, warned)`, apply each algorithm in turn, breaking as soon as
fewer than 2 matches remain; the Boolean records whether some algorithm
returned an empty list (the warning branch). -/
def runFuncs {F : Type} : List (List F → List F) → List F × Bool → List F × Bool
  | [], st => st
  | fn :: rest, (m, w) =>
    if m.length < 2 then (m, w)
    else runFuncs rest (fn m, w || (fn m).isEmpty)

/-- Configuration of `FileAutoKeeper` after `init()`: the configured
`rm_paths` (the override is active when the list is non-empty, matching
Python truthiness of `settings.get("rm_paths")`) and the resolved
algorithm list per group (`get_algos`). -/
structure Keeper where
  rmPaths : List String
  algosFor : List PFile → List (List PFile → List PFile)

/-- `FileAutoKeeper.run` on one `FileGroup`: the `rm_paths` override marks
every file passing `notRmPath` and returns; otherwise a group with a flag
already set is skipped; otherwise the whittling loop runs and the head of
the final match list (if any) is marked. -/
def runGroup (k : Keeper) (g : List PFile) (s : KState) : KState :=
  if k.rmPaths.isEmpty = false then markAll (notRmPath k.rmPaths g) s
  else if hasKeep s g then s
  else
    match (runFuncs (k.algosFor g) (g, false)).1 with
    | [] => s
    | f :: _ => setKeep s f.id

/-- `autoKeep`: run the keeper over every group in order. -/
def runAll (k : Keeper) (gs : List (List PFile)) (s : KState) : KState :=
  gs.foldl (fun t g => runGroup k g t) s

/-! ## Scanner clustering (`base/compScan.py`) -/

/-- `compUtils.range_matcher`: plain equality for zero variance, otherwise
`b >= a - variance and b <= a + variance`. -/
def rangeMatcher (v : Int) : Int → Int → Bool :=
  if v = 0 then fun a b => decide (a = b)
  else fun a b => decide (a - v ≤ b ∧ b ≤ a + v)

/-- The per-dimension body of `FileScanner.__append_hash_dict`: the file is
appended to the group of every key that matches its hash, and a new
singleton group keyed by the hash itself is added when that exact hash is
not already a key. -/
def appendHashDict {H F : Type} [DecidableEq H] (isMatch : H → H → Bool)
    (d : List (H × List F)) (f : F) (h : H) : List (H × List F) :=
  let d1 := d.map (fun kv => if isMatch kv.1 h then (kv.1, kv.2 ++ [f]) else kv)
  if d.any (fun kv => decide (kv.1 = h)) then d1 else d1 ++ [(h, [f])]

/-- The clustering step exactly as the specification words it (for the
refutation of the first-match-wins reading): append the file to the first
matching key's group only, otherwise add a new singleton group. -/
def specFirstMatchAppend {H F : Type} (isMatch : H → H → Bool) :
    List (H × List F) → F → H → List (H × List F)
  | [], f, h => [(h, [f])]
  | kv :: rest, f, h =>
    if isMatch kv.1 h then (kv.1, kv.2 ++ [f]) :: rest
    else kv :: specFirstMatchAppend isMatch rest f h

/-- `FileGroup.add_unique`: extend the list by the values not already
present, checking membership against the growing list. -/
def addUnique {F : Type} [DecidableEq F] (l : List F) (vals : List F) : List F :=
  vals.foldl (fun acc v => if v ∈ acc then acc else acc ++ [v]) l

/-- One step of the merge loop of `FileScanner.__clean_hash_dict`: a group
with fewer than 2 files is dropped; without combining it is copied over;
otherwise its files are folded (via `add_unique`) into every already-merged
key whose representative matches, and a new bucket is appended only when no
merged key matched. -/
def cleanStep {H F : Type} [DecidableEq H] [DecidableEq F] (isMatch : H → H → Bool)
    (combine : Bool) (acc : List (H × List F)) (kv : H × List F) : List (H × List F) :=
  if kv.2.length < 2 then acc
  else if combine = false then acc ++ [kv]
  else if acc.any (fun mk => isMatch kv.1 mk.1) then
    acc.map (fun mk => if isMatch kv.1 mk.1 then (mk.1, addUnique mk.2 kv.2) else mk)
  else acc ++ [kv]

/-- `FileScanner.__clean_hash_dict` for one dimension. -/
def cleanHashDict {H F : Type} [DecidableEq H] [DecidableEq F] (isMatch : H → H → Bool)
    (combine : Bool) (d : List (H × List F)) : List (H × List F) :=
  d.foldl (cleanStep isMatch combine) []

/-- The merge step exactly as the specification words it: fold the group
into the first already-merged key whose representative matches, otherwise
start a new merged bucket. -/
def specFoldFirst {H F : Type} [DecidableEq F] (isMatch : H → H → Bool) :
    List (H × List F) → H → List F → List (H × List F)
  | [], h, fs => [(h, fs)]
  | mk :: rest, h, fs =>
    if isMatch h mk.1 then (mk.1, addUnique mk.2 fs) :: rest
    else mk :: specFoldFirst isMatch rest h fs

/-! ## Group sanitizer (`base/compSanit.py`) -/

/-- File view used by `clean_data`: identity, whether the path still exists
on disk, and the keep flag. The pairwise stat matcher
(`file.match_count(other, min_stats) >= min_stats`) is kept abstract as a
`matchp` parameter. -/
structure SFile where
  id : Nat
  ex : Bool
  keep : Bool
  deriving DecidableEq, Repr

/-- Index access into a group, with an irrelevant default for the
out-of-range case (all uses stay in range). -/
def fileAt (g : List SFile) (i : Nat) : SFile := g.getD i ⟨0, false, false⟩

/-- Indices removed in step (1) of `clean_data`: members whose path no
longer exists (`not p.path.exists()`). -/
def removedMissing (g : List SFile) : List Nat :=
  (List.range g.length).filter (fun i => !(fileAt g i).ex)

/-- Modelled from the spec: `get_matches` is imported by `clean_data` from
`compUtils` but is absent from the sources; per spec section 4.5 step (2)
it returns the indices of members, among those not already removed, that
share at least the threshold many matching stats with some remaining
(not-removed) peer. -/
def getMatches (matchp : SFile → SFile → Bool) (g : List SFile) (removed : List Nat) :
    List Nat :=
  (List.range g.length).filter (fun i =>
    decide (i ∉ removed) && (List.range g.length).any (fun j =>
      decide (j ≠ i) && decide (j ∉ removed) && matchp (fileAt g i) (fileAt g j)))

/-- Indices removed after step (2): when the threshold is configured
(`min_stats` truthy), the union of the step-(1) indices and the indices not
kept by `get_matches`, in ascending order (the source sorts the set). -/
def removedAfterStats (matchp : SFile → SFile → Bool) (ms : Nat) (g : List SFile) :
    List Nat :=
  if ms ≠ 0 then
    (List.range g.length).filter (fun i =>
      decide (i ∈ removedMissing g) || decide (i ∉ getMatches matchp g (removedMissing g)))
  else removedMissing g

/-- Indices removed after step (3): the whole group when `clean_solo` is
set and removal would leave exactly one member. -/
def removedFinal (matchp : SFile → SFile → Bool) (solo : Bool) (ms : Nat)
    (g : List SFile) : List Nat :=
  if solo && decide ((removedAfterStats matchp ms g).length + 1 = g.length) then
    List.range g.length
  else removedAfterStats matchp ms g

/-- The members of the group surviving the removal steps, in order. -/
def cleanSurvivors (matchp : SFile → SFile → Bool) (solo : Bool) (ms : Nat)
    (g : List SFile) : List SFile :=
  ((List.range g.length).filter (fun i => decide (i ∉ removedFinal matchp solo ms g))).map
    (fileAt g)

/-- `clean_data` on one group: `none` when the group is dropped wholesale
(every survivor kept, under `clean_kept`; otherwise when no member
survives), else the surviving members. -/
def cleanGroup (matchp : SFile → SFile → Bool) (solo kept : Bool) (ms : Nat)
    (g : List SFile) : Option (List SFile) :=
  let surv := cleanSurvivors matchp solo ms g
  if (if kept then surv.all (fun f => f.keep) else surv.isEmpty) then none else some surv

/-- `clean_data` over the whole group list. -/
def cleanData (matchp : SFile → SFile → Bool) (solo kept : Bool) (ms : Nat)
    (groups : List (List SFile)) : List (List SFile) :=
  groups.filterMap (cleanGroup matchp solo kept ms)

/-- Claim-side reading of the threshold rule: member `i` fails the
minimum-shared-stat threshold against every remaining peer (every other
index that still exists on disk). -/
def failsThreshold (matchp : SFile → SFile → Bool) (g : List SFile) (i : Nat) : Bool :=
  (List.range g.length).all (fun j =>
    decide (j = i) || !(fileAt g j).ex || !(matchp (fileAt g i) (fileAt g j)))

/-- Claim-side reading of the indices removed by rules (1)-(2): the path no
longer exists, or the threshold is configured and fails against every
remaining peer. -/
def rule12Removed (matchp : SFile → SFile → Bool) (ms : Nat) (g : List SFile) :
    List Nat :=
  (List.range g.length).filter (fun i =>
    !(fileAt g i).ex || (decide (ms ≠ 0) && failsThreshold matchp g i))

/-! ## Scan-log replay (`base/compCsv.py` `read_log`, `base/compScan.py` resume) -/

/-- Sample file used by witnesses. -/
def wA : PFile := ⟨1, "/a/a.jpg", ".jpg", 1, 100⟩

/-- Sample file used by witnesses. -/
def wB : PFile := ⟨2, "/a/b.jpg", ".jpg", 1, 50⟩

/-- Keeper configuration used by witnesses: no rm_paths, no algorithms. -/
def wKeeper : Keeper := ⟨[], fun _ => []⟩

/-! ## Claim-side spec readings and claim-level predicates -/

/-- The extremal-with-band rule exactly as the claim words it: keep the
members whose projection lies within plus-or-minus the variance of the
minimum (resp. maximum) projection of the whole list. -/
def specBandKeep {F : Type} (get : F → Int) (isMin : Bool) (v : Int)
    (files : List F) : List F :=
  match (if isMin then (files.map get).min? else (files.map get).max?) with
  | none => []
  | some m => files.filter (fun f => decide (|get f - m| ≤ v))

/-- A narrowing function of one of the two extremal/preference-generated
forms (`min_max_algo` or `array_index_algo`). -/
def IsBuiltinNarrow {F : Type} (fn : List F → List F) : Prop :=
  (∃ get isMin v, fn = minMaxAlgo get isMin v) ∨
    (∃ array fmv isMin, fn = arrayIndexAlgo array fmv isMin)

lemma minMaxGoConsNone {F : Type} (get : F → Int) (isMin : Bool) (v : Int)
    (f : F) (fs res : List F) :
    minMaxGo get isMin v (f :: fs) res none =
      minMaxGo get isMin v fs [f] (some (get f - v, get f + v)) := rfl

lemma minMaxGoConsSomeMinZero {F : Type} (get : F → Int) (f : F) (fs res : List F)
    (lo hi : Int) :
    minMaxGo get true 0 (f :: fs) res (some (lo, hi)) =
      if get f < lo then minMaxGo get true 0 fs [f] (some (get f - 0, get f + 0))
      else if get f = lo then minMaxGo get true 0 fs (res ++ [f]) (some (lo, hi))
      else minMaxGo get true 0 fs res (some (lo, hi)) := rfl

lemma minMaxGoConsSomeMaxZero {F : Type} (get : F → Int) (f : F) (fs res : List F)
    (lo hi : Int) :
    minMaxGo get false 0 (f :: fs) res (some (lo, hi)) =
      if get f > hi then minMaxGo get false 0 fs [f] (some (get f - 0, get f + 0))
      else if get f = lo then minMaxGo get false 0 fs (res ++ [f]) (some (lo, hi))
      else minMaxGo get false 0 fs res (some (lo, hi)) := rfl

lemma foldlMin_le (l : List Int) : ∀ x : Int, List.foldl min x l ≤ x := by
  induction l with
  | nil => intro x; simp
  | cons y t ih =>
    intro x
    exact le_trans (ih (min x y)) (min_le_left x y)

lemma foldlMax_ge (l : List Int) : ∀ x : Int, x ≤ List.foldl max x l := by
  induction l with
  | nil => intro x; simp
  | cons y t ih =>
    intro x
    exact le_trans (le_max_left x y) (ih (max x y))

lemma minMaxGoZeroMin {F : Type} (get : F → Int) :
    ∀ (rest res : List F) (a : Int),
      minMaxGo get true 0 rest res (some (a, a)) =
        (if List.foldl min a (rest.map get) = a then res else []) ++
          rest.filter (fun f => decide (get f = List.foldl min a (rest.map get))) := by
  intro rest
  induction rest with
  | nil => intro res a; simp [minMaxGo]
  | cons f fs ih =>
    intro res a
    rw [minMaxGoConsSomeMinZero]
    simp only [List.map_cons, List.foldl_cons, List.filter_cons]
    by_cases h1 : get f < a
    · rw [if_pos h1]
      have hmin : min a (get f) = get f := min_eq_right (le_of_lt h1)
      simp only [hmin]
      have hM : List.foldl min (get f) (fs.map get) ≤ get f := foldlMin_le _ _
      have hMa : List.foldl min (get f) (fs.map get) ≠ a :=
        ne_of_lt (lt_of_le_of_lt hM h1)
      rw [if_neg hMa]
      have hsub : get f - 0 = get f := by ring
      have hadd : get f + 0 = get f := by ring
      rw [hsub, hadd, ih [f] (get f)]
      by_cases hc : get f = List.foldl min (get f) (List.map get fs)
      · rw [if_pos hc.symm, if_pos (decide_eq_true hc)]
        simp
      · rw [if_neg (fun h => hc h.symm), if_neg (fun h => hc (of_decide_eq_true h))]
    · by_cases h2 : get f = a
      · rw [if_neg h1, if_pos h2]
        have hmin : min a (get f) = a := by rw [h2]; exact min_self a
        simp only [hmin]
        rw [ih (res ++ [f]) a]
        by_cases hc : List.foldl min a (List.map get fs) = a
        · rw [if_pos hc, if_pos hc, if_pos (decide_eq_true (h2.trans hc.symm))]
          simp
        · rw [if_neg hc, if_neg hc,
            if_neg (fun hd => hc ((of_decide_eq_true hd).symm.trans h2))]
      · rw [if_neg h1, if_neg h2]
        have hgt : a < get f := lt_of_le_of_ne (not_lt.mp h1) (fun h => h2 h.symm)
        have hmin : min a (get f) = a := min_eq_left (le_of_lt hgt)
        simp only [hmin]
        rw [ih res a]
        have hM : List.foldl min a (fs.map get) ≤ a := foldlMin_le _ _
        have hne : get f ≠ List.foldl min a (List.map get fs) :=
          ne_of_gt (lt_of_le_of_lt hM hgt)
        rw [if_neg (fun h => hne (of_decide_eq_true h))]

lemma minMaxGoZeroMax {F : Type} (get : F → Int) :
    ∀ (rest res : List F) (a : Int),
      minMaxGo get false 0 rest res (some (a, a)) =
        (if List.foldl max a (rest.map get) = a then res else []) ++
          rest.filter (fun f => decide (get f = List.foldl max a (rest.map get))) := by
  intro rest
  induction rest with
  | nil => intro res a; simp [minMaxGo]
  | cons f fs ih =>
    intro res a
    rw [minMaxGoConsSomeMaxZero]
    simp only [List.map_cons, List.foldl_cons, List.filter_cons]
    by_cases h1 : get f > a
    · rw [if_pos h1]
      have hmax : max a (get f) = get f := max_eq_right (le_of_lt h1)
      simp only [hmax]
      have hM : get f ≤ List.foldl max (get f) (fs.map get) := foldlMax_ge _ _
      have hMa : List.foldl max (get f) (fs.map get) ≠ a :=
        ne_of_gt (lt_of_lt_of_le h1 hM)
      rw [if_neg hMa]
      have hsub : get f - 0 = get f := by ring
      have hadd : get f + 0 = get f := by ring
      rw [hsub, hadd, ih [f] (get f)]
      by_cases hc : get f = List.foldl max (get f) (List.map get fs)
      · rw [if_pos hc.symm, if_pos (decide_eq_true hc)]
        simp
      · rw [if_neg (fun h => hc h.symm), if_neg (fun h => hc (of_decide_eq_true h))]
    · by_cases h2 : get f = a
      · rw [if_neg h1, if_pos h2]
        have hmax : max a (get f) = a := by rw [h2]; exact max_self a
        simp only [hmax]
        rw [ih (res ++ [f]) a]
        by_cases hc : List.foldl max a (List.map get fs) = a
        · rw [if_pos hc, if_pos hc, if_pos (decide_eq_true (h2.trans hc.symm))]
          simp
        · rw [if_neg hc, if_neg hc,
            if_neg (fun hd => hc ((of_decide_eq_true hd).symm.trans h2))]
      · rw [if_neg h1, if_neg h2]
        have hlt : get f < a := lt_of_le_of_ne (not_lt.mp h1) h2
        have hmax : max a (get f) = a := max_eq_left (le_of_lt hlt)
        simp only [hmax]
        rw [ih res a]
        have hM : a ≤ List.foldl max a (fs.map get) := foldlMax_ge _ _
        have hne : get f ≠ List.foldl max a (List.map get fs) :=
          ne_of_lt (lt_of_lt_of_le hlt hM)
        rw [if_neg (fun h => hne (of_decide_eq_true h))]

/-! ## Claim C4: extremal-with-band narrowing -/

/-- C4 (counterexample): with variance 1 and the candidate projections
`[5, 6]`, `min_max_algo` keeps only `5`, although `6` lies within
plus-or-minus 1 of the minimum 5 — the Python band
`range(round(curr - variance), round(curr + variance))` is half-open, so
the claim as stated fails. -/
theorem C4_counterexample :
    minMaxAlgo (fun x : Int => x) true 1 [5, 6] ≠
      specBandKeep (fun x : Int => x) true 1 [5, 6] := by decide

/-- C4 (amended): with variance 0, `min_max_algo(get_value, is_min, 0)`
returns exactly the members whose integer projection attains the minimum
(`is_min = true`) resp. maximum (`is_min = false`) projection of the whole
list, independent of order; with a non-zero variance the kept band is the
half-open `range(m - v, m + v)` re-anchored at each new running extremal
element, so the "within plus-or-minus v of the extremum" description fails
(see the counterexample). -/
theorem C4_amended {F : Type} (get : F → Int) (isMin : Bool) (files : List F)
    (m : Int)
    (hm : (if isMin then (files.map get).min? else (files.map get).max?) = some m) :
    minMaxAlgo get isMin 0 files = files.filter (fun f => decide (get f = m)) := by
  cases files with
  | nil => cases isMin <;> simp [List.min?, List.max?] at hm
  | cons f fs =>
    cases isMin with
    | true =>
      have hm2 : List.foldl min (get f) (fs.map get) = m := by
        simpa [List.min?] using hm
      show minMaxGo get true 0 (f :: fs) [] none = _
      rw [minMaxGoConsNone]
      have hsub : get f - 0 = get f := by ring
      have hadd : get f + 0 = get f := by ring
      rw [hsub, hadd, minMaxGoZeroMin get fs [f] (get f)]
      rw [hm2, List.filter_cons]
      by_cases hc : m = get f
      · rw [if_pos hc, if_pos (decide_eq_true hc.symm)]
        simp
      · rw [if_neg hc, if_neg (fun h => hc (of_decide_eq_true h).symm)]
        simp
    | false =>
      have hm2 : List.foldl max (get f) (fs.map get) = m := by
        simpa [List.max?] using hm
      show minMaxGo get false 0 (f :: fs) [] none = _
      rw [minMaxGoConsNone]
      have hsub : get f - 0 = get f := by ring
      have hadd : get f + 0 = get f := by ring
      rw [hsub, hadd, minMaxGoZeroMax get fs [f] (get f)]
      rw [hm2, List.filter_cons]
      by_cases hc : m = get f
      · rw [if_pos hc, if_pos (decide_eq_true hc.symm)]
        simp
      · rw [if_neg hc, if_neg (fun h => hc (of_decide_eq_true h).symm)]
        simp

/-- C4 (witness): the amended theorem applied to the projections `[5, 6]`
with `is_min = true`: the minimum is 5 and exactly the members with
projection 5 are kept. -/
theorem C4_amended_witness :
    (if (true : Bool) then (([5, 6] : List Int).map (fun x => x)).min?
      else (([5, 6] : List Int).map (fun x => x)).max?) = some 5 ∧
    minMaxAlgo (fun x : Int => x) true 0 [5, 6] =
      [5, 6].filter (fun f => decide ((fun x : Int => x) f = 5)) :=
  ⟨by decide, C4_amended (fun x => x) true [5, 6] 5 (by decide)⟩

/-! ## Claim C3: preference-rank narrowing -/

/-- C3 (code evaluation at the failing input): the preference-rank
functions built with `array_index_algo`'s default `is_min` flag keep the
member whose value is absent from (or closest to the back of) the
preference list, not the front-most one: with preferred extensions
`[".jpg"]`, the `.gif` file is kept over the `.jpg` file, and with
preferred roots `["/best", "/ok"]` the file outside both roots is kept. -/
theorem C3_code_eval :
    prefExts [".jpg"] [⟨0, "/a/x.jpg", ".jpg", 1, 0⟩, ⟨1, "/a/y.gif", ".gif", 1, 0⟩] =
      [⟨1, "/a/y.gif", ".gif", 1, 0⟩] ∧
    prefLoc ["/best", "/ok"]
        [⟨0, "/best/x.jpg", ".jpg", 1, 0⟩, ⟨1, "/tmp/y.jpg", ".jpg", 1, 0⟩] =
      [⟨1, "/tmp/y.jpg", ".jpg", 1, 0⟩] := by decide

/-! ## Claim C1: rm_paths override -/

/-- C1 (code evaluation at the failing input): with
`rm_paths = ["/rm"]` and a group holding `/rm/a.jpg` (inside the
restricted removal path) and `/keep/b.jpg` (outside it),
`FileAutoKeeper.run` marks `keep = true` on the member located UNDER the
configured path and leaves the outside member unmarked — the opposite of
the claim (the built test lacks the negation its own name announces). -/
theorem C1_code_eval :
    runGroup ⟨["/rm"], fun _ => []⟩
        [⟨0, "/rm/a.jpg", ".jpg", 1, 0⟩, ⟨1, "/keep/b.jpg", ".jpg", 1, 0⟩]
        (fun _ => false) 0 = true ∧
    runGroup ⟨["/rm"], fun _ => []⟩
        [⟨0, "/rm/a.jpg", ".jpg", 1, 0⟩, ⟨1, "/keep/b.jpg", ".jpg", 1, 0⟩]
        (fun _ => false) 1 = false := by decide

/-! ## Claim C2: greedy clustering, code vs first-match-wins reading -/

/-- C2 (counterexample): with the banded matcher of variance 2, scanning a
file of hash 12 into the key map `{10: [1], 13: [2]}` appends it to BOTH
matching groups and additionally creates a new singleton keyed 12, while
the first-match-wins reading of the claim appends it to the group of key
10 only; likewise the combine pass folds an incoming group into BOTH
matching merged keys, not only the first. -/
theorem C2_counterexample :
    appendHashDict (rangeMatcher 2) [((10 : Int), [(1 : Nat)]), (13, [2])] 3 12 ≠
      specFirstMatchAppend (rangeMatcher 2) [((10 : Int), [(1 : Nat)]), (13, [2])] 3 12 ∧
    cleanStep (rangeMatcher 2) true [((10 : Int), [(1 : Nat), 2]), (13, [3, 4])] (12, [5, 6]) ≠
      specFoldFirst (rangeMatcher 2) [((10 : Int), [(1 : Nat), 2]), (13, [3, 4])] 12 [5, 6] := by
  decide

/-! ## Claim C2 (amended theorem): every matching key is updated -/

lemma findMapKey {H F : Type} [DecidableEq H] (g : H × List F → H × List F)
    (hg : ∀ kv, (g kv).1 = kv.1) (l : List (H × List F)) (k : H) :
    (l.map g).find? (fun kv => decide (kv.1 = k)) =
      (l.find? (fun kv => decide (kv.1 = k))).map g := by
  induction l with
  | nil => simp
  | cons kv t ih =>
    by_cases hk : kv.1 = k
    · rw [List.map_cons, List.find?_cons_of_pos _ (by simp [hg, hk]),
        List.find?_cons_of_pos _ (by simp [hk])]
      rfl
    · rw [List.map_cons, List.find?_cons_of_neg _ (by simp [hg, hk]),
        List.find?_cons_of_neg _ (by simp [hk])]
      exact ih

/-- C2 (amended): during a scan the file is appended to the group of EVERY
existing key that matches its hash (the group found at any key k receives
the file exactly when k matches), and a new singleton group keyed by the
hash is created exactly when that hash is not literally among the keys; in
the combine pass, every merged key whose representative matches the
incoming key receives the incoming files (deduplicated), and a new bucket
is appended exactly when no merged key matches. -/
theorem C2_amended {H F : Type} [DecidableEq H] [DecidableEq F] (isMatch : H → H → Bool)
    (d : List (H × List F)) (f : F) (h : H) :
    (∀ k : H,
      (appendHashDict isMatch d f h).find? (fun kv => decide (kv.1 = k)) =
        match d.find? (fun kv => decide (kv.1 = k)) with
        | some kv => some (kv.1, kv.2 ++ (if isMatch kv.1 h then [f] else []))
        | none => if k = h then some (h, [f]) else none) ∧
    (∀ (acc : List (H × List F)) (fs : List F) (k : H) (kv : H × List F),
      2 ≤ fs.length →
      acc.find? (fun mk => decide (mk.1 = k)) = some kv →
      isMatch h k = true →
      (cleanStep isMatch true acc (h, fs)).find? (fun mk => decide (mk.1 = k)) =
        some (kv.1, addUnique kv.2 fs)) ∧
    (∀ (acc : List (H × List F)) (fs : List F),
      2 ≤ fs.length →
      acc.all (fun mk => !isMatch h mk.1) = true →
      cleanStep isMatch true acc (h, fs) = acc ++ [(h, fs)]) := by
  refine ⟨?_, ?_, ?_⟩
  · intro k
    have hg : ∀ kv : H × List F,
        ((fun kv => if isMatch kv.1 h then (kv.1, kv.2 ++ [f]) else kv) kv).1 = kv.1 := by
      intro kv; by_cases hm : isMatch kv.1 h <;> simp [hm]
    by_cases hany : d.any (fun kv => decide (kv.1 = h)) = true
    · simp only [appendHashDict, if_pos hany]
      rw [findMapKey _ hg]
      cases hf : d.find? (fun kv => decide (kv.1 = k)) with
      | some kv =>
        simp only [Option.map_some]
        by_cases hm : isMatch kv.1 h <;> simp [hm]
      | none =>
        simp only [Option.map_none]
        have hkh : ¬ (k = h) := by
          intro he
          obtain ⟨kv, hmem, hp⟩ := List.any_eq_true.mp hany
          have := List.find?_eq_none.mp hf kv hmem
          rw [he] at this
          exact this hp
        rw [if_neg hkh]
        simp
    · simp only [appendHashDict, if_neg hany]
      rw [List.find?_append, findMapKey _ hg]
      cases hf : d.find? (fun kv => decide (kv.1 = k)) with
      | some kv =>
        simp only [Option.map_some, Option.or]
        by_cases hm : isMatch kv.1 h <;> simp [hm]
      | none =>
        simp only [Option.map_none, Option.or]
        by_cases hkh : h = k
        · rw [List.find?_cons_of_pos _ (by simp [hkh]), if_pos hkh.symm]
          simp
        · rw [List.find?_cons_of_neg _ (by simp [hkh]), if_neg (fun he => hkh he.symm)]
          simp
  · intro acc fs k kv hlen hfind hmatch
    have hp1 := List.find?_some hfind
    have hk1 : kv.1 = k := of_decide_eq_true hp1
    have hany : acc.any (fun mk => isMatch h mk.1) = true :=
      List.any_eq_true.mpr ⟨kv, List.mem_of_find?_eq_some hfind, by rw [hk1]; exact hmatch⟩
    have hg : ∀ mk : H × List F,
        ((fun mk => if isMatch h mk.1 then (mk.1, addUnique mk.2 fs) else mk) mk).1 = mk.1 := by
      intro mk; by_cases hm : isMatch h mk.1 <;> simp [hm]
    simp only [cleanStep, if_neg (not_lt.mpr hlen), if_neg (by decide : ¬ (true = false)),
      if_pos hany]
    rw [findMapKey _ hg, hfind]
    have hmv : isMatch h kv.1 = true := by rw [hk1]; exact hmatch
    simp [hmv]
  · intro acc fs hlen hall
    have hany : ¬ (acc.any (fun mk => isMatch h mk.1) = true) := by
      intro hc
      obtain ⟨mk, hmem, hp⟩ := List.any_eq_true.mp hc
      have := List.all_eq_true.mp hall mk hmem
      simp [hp] at this
    simp only [cleanStep, if_neg (not_lt.mpr hlen), if_neg (by decide : ¬ (true = false)),
      if_neg hany]

/-- C2 (witness): the amended combine-pass statement applied to the merged
keys `{10: [1, 2], 13: [3, 4]}`, incoming group `(12, [5, 6])` and the
banded matcher of variance 2: key 10 matches and its group receives the
deduplicated files. -/
theorem C2_amended_witness :
    2 ≤ ([5, 6] : List Nat).length ∧
    ([((10 : Int), [(1 : Nat), 2]), (13, [3, 4])].find? (fun mk => decide (mk.1 = 10)) =
      some (10, [1, 2])) ∧
    rangeMatcher 2 12 10 = true ∧
    (cleanStep (rangeMatcher 2) true [((10 : Int), [(1 : Nat), 2]), (13, [3, 4])]
        (12, [5, 6])).find? (fun mk => decide (mk.1 = 10)) =
      some (10, addUnique [1, 2] [5, 6]) :=
  ⟨by decide, by decide, by decide,
    (C2_amended (rangeMatcher 2) [((10 : Int), [(1 : Nat)]), (13, [2])] 3 12).2.1
      [((10 : Int), [(1 : Nat), 2]), (13, [3, 4])] [5, 6] 10 (10, [1, 2])
      (by decide) (by decide) (by decide)⟩


/-! ## Claims C10 and C5: pipeline safety and termination -/

lemma minMaxGoConsSome {F : Type} (get : F → Int) (isMin : Bool) (v : Int)
    (f : F) (fs res : List F) (lo hi : Int) :
    minMaxGo get isMin v (f :: fs) res (some (lo, hi)) =
      if (if isMin then get f < lo else get f > hi) then
        minMaxGo get isMin v fs [f] (some (get f - v, get f + v))
      else if (if v = 0 then get f = lo else lo ≤ get f ∧ get f < hi) then
        minMaxGo get isMin v fs (res ++ [f]) (some (lo, hi))
      else minMaxGo get isMin v fs res (some (lo, hi)) := rfl

lemma minMaxGo_sublist {F : Type} (get : F → Int) (isMin : Bool) (v : Int) :
    ∀ (rest res : List F) (rng : Option (Int × Int)),
      List.Sublist (minMaxGo get isMin v rest res rng) (res ++ rest) := by
  intro rest
  induction rest with
  | nil => intro res rng; simp [minMaxGo]
  | cons f fs ih =>
    intro res rng
    have hcons : List.Sublist (f :: fs) (res ++ f :: fs) := List.sublist_append_right res _
    cases rng with
    | none =>
      rw [minMaxGoConsNone]
      exact List.Sublist.trans (ih [f] _) hcons
    | some p =>
      cases p with
      | mk lo hi =>
        rw [minMaxGoConsSome]
        split_ifs <;>
          first
            | exact List.Sublist.trans (ih [f] _) hcons
            | (have hap := ih (res ++ [f]) (some (lo, hi)); simpa using hap)
            | exact List.Sublist.trans (ih res _)
                (List.Sublist.append_left (List.sublist_cons_self f fs) res)

lemma minMaxGo_ne_nil {F : Type} (get : F → Int) (isMin : Bool) (v : Int) :
    ∀ (rest res : List F) (rng : Option (Int × Int)), res ≠ [] →
      minMaxGo get isMin v rest res rng ≠ [] := by
  intro rest
  induction rest with
  | nil => intro res rng h; simpa [minMaxGo] using h
  | cons f fs ih =>
    intro res rng h
    cases rng with
    | none => rw [minMaxGoConsNone]; exact ih [f] _ (by simp)
    | some p =>
      cases p with
      | mk lo hi =>
        rw [minMaxGoConsSome]
        split_ifs <;>
          first
            | exact ih [f] _ (by simp)
            | exact ih (res ++ [f]) _ (by simp)
            | exact ih res _ h

lemma minMaxAlgo_sublist {F : Type} (get : F → Int) (isMin : Bool) (v : Int)
    (files : List F) : List.Sublist (minMaxAlgo get isMin v files) files := by
  cases files with
  | nil => simp [minMaxAlgo, minMaxGo]
  | cons f fs =>
    show List.Sublist (minMaxGo get isMin v (f :: fs) [] none) _
    rw [minMaxGoConsNone]
    simpa using minMaxGo_sublist get isMin v fs [f] _

lemma minMaxAlgo_ne_nil {F : Type} (get : F → Int) (isMin : Bool) (v : Int)
    (files : List F) (h : files ≠ []) : minMaxAlgo get isMin v files ≠ [] := by
  cases files with
  | nil => exact absurd rfl h
  | cons f fs =>
    show minMaxGo get isMin v (f :: fs) [] none ≠ []
    rw [minMaxGoConsNone]
    exact minMaxGo_ne_nil get isMin v fs [f] _ (by simp)

lemma arrayIndexAlgo_sublist {F : Type} (array : List String) (fmv : F → String → Bool)
    (isMin : Bool) (files : List F) :
    List.Sublist (arrayIndexAlgo array fmv isMin files) files := by
  unfold arrayIndexAlgo
  split_ifs with h
  · exact List.Sublist.refl files
  · exact minMaxAlgo_sublist _ _ _ _

lemma arrayIndexAlgo_ne_nil {F : Type} (array : List String) (fmv : F → String → Bool)
    (isMin : Bool) (files : List F) (h : files ≠ []) :
    arrayIndexAlgo array fmv isMin files ≠ [] := by
  unfold arrayIndexAlgo
  split_ifs with he
  · exact h
  · exact minMaxAlgo_ne_nil _ _ _ _ h

lemma builtinNarrow_sublist {F : Type} {fn : List F → List F} (hb : IsBuiltinNarrow fn)
    (l : List F) : List.Sublist (fn l) l := by
  rcases hb with ⟨get, isMin, v, rfl⟩ | ⟨array, fmv, isMin, rfl⟩
  · exact minMaxAlgo_sublist _ _ _ _
  · exact arrayIndexAlgo_sublist _ _ _ _

lemma builtinNarrow_ne_nil {F : Type} {fn : List F → List F} (hb : IsBuiltinNarrow fn)
    (l : List F) (h : l ≠ []) : fn l ≠ [] := by
  rcases hb with ⟨get, isMin, v, rfl⟩ | ⟨array, fmv, isMin, rfl⟩
  · exact minMaxAlgo_ne_nil _ _ _ _ h
  · exact arrayIndexAlgo_ne_nil _ _ _ _ h

lemma runFuncs_preserve {F : Type} :
    ∀ (algos : List (List F → List F)) (m : List F) (w : Bool),
      (∀ fn ∈ algos, ∀ l : List F, l ≠ [] → fn l ≠ []) → m ≠ [] →
      (runFuncs algos (m, w)).1 ≠ [] ∧ (runFuncs algos (m, w)).2 = w := by
  intro algos
  induction algos with
  | nil => intro m w _ hm; exact ⟨hm, rfl⟩
  | cons fn rest ih =>
    intro m w hfn hm
    show (runFuncs (fn :: rest) (m, w)).1 ≠ [] ∧ _
    rw [runFuncs]
    split_ifs with hlen
    · exact ⟨hm, rfl⟩
    · have hm2 : fn m ≠ [] := hfn fn (by simp) m hm
      have hie : (fn m).isEmpty = false := by
        cases hfm : fn m with
        | nil => exact absurd hfm hm2
        | cons a t => simp
      rw [hie, Bool.or_false]
      exact ih (fn m) w (fun g hg => hfn g (by simp [hg])) hm2


lemma runFuncs_nil_state {F : Type} (algos : List (List F → List F)) (w : Bool) :
    runFuncs algos (([] : List F), w) = ([], w) := by
  cases algos with
  | nil => rfl
  | cons fn rest => simp [runFuncs]

lemma runFuncs_sublist {F : Type} :
    ∀ (algos : List (List F → List F)) (m : List F) (w : Bool),
      (∀ fn ∈ algos, ∀ l : List F, List.Sublist (fn l) l) →
      List.Sublist ((runFuncs algos (m, w)).1) m := by
  intro algos
  induction algos with
  | nil => intro m w _; exact List.Sublist.refl m
  | cons fn rest ih =>
    intro m w hfn
    rw [runFuncs]
    split_ifs with hlen
    · exact List.Sublist.refl m
    · exact List.Sublist.trans
        (ih (fn m) _ (fun g hg => hfn g (by simp [hg]))) (hfn fn (by simp) m)

lemma runFuncs_empty_warn {F : Type} :
    ∀ (algos : List (List F → List F)) (m : List F) (w : Bool), m ≠ [] →
      (runFuncs algos (m, w)).1 = [] → (runFuncs algos (m, w)).2 = true := by
  intro algos
  induction algos with
  | nil => intro m w hm he; exact absurd he hm
  | cons fn rest ih =>
    intro m w hm he
    rw [runFuncs] at he ⊢
    split_ifs at he ⊢ with hlen
    · exact absurd he hm
    · cases hfm : fn m with
      | nil =>
        rw [runFuncs_nil_state]
        simp
      | cons a t =>
        rw [hfm] at he
        exact ih (a :: t) _ (by simp) he

lemma sublistFilterMem {α : Type} [DecidableEq α] :
    ∀ {l₁ l₂ : List α}, List.Sublist l₁ l₂ → l₂.Nodup →
      l₂.filter (fun a => decide (a ∈ l₁)) = l₁ := by
  intro l₁ l₂ hs
  induction hs with
  | slnil => intro _; rfl
  | cons a hs ih =>
    intro hnd
    rw [List.nodup_cons] at hnd
    rw [List.filter_cons]
    have hna : ¬ (a ∈ _) := fun hmem => hnd.1 (hs.subset hmem)
    rw [if_neg (by simpa using hna)]
    exact ih hnd.2
  | cons₂ a hs ih =>
    intro hnd
    rw [List.nodup_cons] at hnd
    rw [List.filter_cons, if_pos (by simp)]
    congr 1
    rw [List.filter_congr (fun x hx => ?_)]
    · exact ih hnd.2
    · simp only [decide_eq_decide, List.mem_cons]
      constructor
      · intro h
        cases h with
        | inl he => exact absurd (he ▸ hx) hnd.1
        | inr hm => exact hm
      · exact Or.inr


/-- C10: every narrowing function produced by `min_max_algo` or
`array_index_algo` maps a non-empty candidate list to a non-empty sublist
of it (members of the input, input order preserved); consequently the keep
pipeline built only of such functions never triggers the empty-candidate
warning branch and ends with a non-empty candidate list, while
`pass_test_algo` can return an empty list. -/
theorem C10_safety {F : Type} :
    (∀ (get : F → Int) (isMin : Bool) (v : Int) (files : List F), files ≠ [] →
      List.Sublist (minMaxAlgo get isMin v files) files ∧
        minMaxAlgo get isMin v files ≠ []) ∧
    (∀ (array : List String) (fmv : F → String → Bool) (isMin : Bool) (files : List F),
      files ≠ [] →
      List.Sublist (arrayIndexAlgo array fmv isMin files) files ∧
        arrayIndexAlgo array fmv isMin files ≠ []) ∧
    (∀ (algos : List (List F → List F)) (files : List F), files ≠ [] →
      (∀ fn ∈ algos, IsBuiltinNarrow fn) →
      (runFuncs algos (files, false)).2 = false ∧
        (runFuncs algos (files, false)).1 ≠ []) ∧
    (∃ (test : Int → Bool) (files : List Int), files ≠ [] ∧ passTestAlgo test files = []) := by
  refine ⟨?_, ?_, ?_, ?_⟩
  · intro get isMin v files h
    exact ⟨minMaxAlgo_sublist get isMin v files, minMaxAlgo_ne_nil get isMin v files h⟩
  · intro array fmv isMin files h
    exact ⟨arrayIndexAlgo_sublist array fmv isMin files,
      arrayIndexAlgo_ne_nil array fmv isMin files h⟩
  · intro algos files h hb
    have hp := runFuncs_preserve algos files false
      (fun fn hfn l hl => builtinNarrow_ne_nil (hb fn hfn) l hl) h
    exact ⟨hp.2, hp.1⟩
  · exact ⟨fun _ => false, [3], by simp, by simp [passTestAlgo]⟩

/-- C10 (witness): the safety theorem applied to the singleton candidate
list `[3]` and the one-stage pipeline `[min_max_algo id true 0]`. -/
theorem C10_safety_witness :
    (List.Sublist (minMaxAlgo (fun x : Int => x) true 0 [3]) [3] ∧
      minMaxAlgo (fun x : Int => x) true 0 [3] ≠ []) ∧
    ((runFuncs [minMaxAlgo (fun x : Int => x) true 0] (([3] : List Int), false)).2 = false ∧
      (runFuncs [minMaxAlgo (fun x : Int => x) true 0] (([3] : List Int), false)).1 ≠ []) :=
  ⟨C10_safety.1 (fun x => x) true 0 [3] (by decide),
    C10_safety.2.2.1 [minMaxAlgo (fun x => x) true 0] [3] (by decide)
      (fun fn hfn => Or.inl ⟨fun x => x, true, 0, List.mem_singleton.mp hfn⟩)⟩

/-- C5: for a group with no member already kept and no rm_paths override,
`FileAutoKeeper.run` whittles the candidates with the dimension's
narrowing functions (stopping below 2 candidates); if the final candidate
list is empty no flag changes (and, for a non-empty group, the warning
Boolean is set because some function returned an empty list), and if it is
non-empty exactly the first final candidate - the earliest group member,
in insertion order, among the final candidates - gets `keep = true`, all
other members stay false, and files outside the group are untouched. -/
theorem C5_pipeline (k : Keeper) (g : List PFile) (s : KState)
    (hrm : k.rmPaths = [])
    (hflags : ∀ f ∈ g, s f.id = false)
    (hsub : ∀ fn ∈ k.algosFor g, ∀ l, List.Sublist (fn l) l)
    (hnd : (g.map PFile.id).Nodup) :
    ((runFuncs (k.algosFor g) (g, false)).1 = [] →
      runGroup k g s = s ∧
        (g ≠ [] → (runFuncs (k.algosFor g) (g, false)).2 = true)) ∧
    (∀ f0 rest, (runFuncs (k.algosFor g) (g, false)).1 = f0 :: rest →
      (g.filter (fun f =>
          decide (f ∈ (runFuncs (k.algosFor g) (g, false)).1))).head? = some f0 ∧
      (∀ f ∈ g, runGroup k g s f.id = decide (f.id = f0.id)) ∧
      (∀ i : Nat, (∀ f ∈ g, f.id ≠ i) → runGroup k g s i = s i)) := by
  have hkeep : hasKeep s g = false := by
    rw [hasKeep]
    cases hany : g.any (fun f => s f.id) with
    | false => rfl
    | true =>
      obtain ⟨f, hmem, hp⟩ := List.any_eq_true.mp hany
      rw [hflags f hmem] at hp
      exact absurd hp (by simp)
  have hrun : runGroup k g s =
      match (runFuncs (k.algosFor g) (g, false)).1 with
      | [] => s
      | f :: _ => setKeep s f.id := by
    rw [runGroup, hrm]
    simp [hkeep]
  constructor
  · intro he
    constructor
    · rw [hrun, he]
    · intro hg
      exact runFuncs_empty_warn (k.algosFor g) g false hg he
  · intro f0 rest hm
    have hmsub : List.Sublist ((runFuncs (k.algosFor g) (g, false)).1) g :=
      runFuncs_sublist (k.algosFor g) g false hsub
    have hgnd : g.Nodup := List.Nodup.of_map PFile.id hnd
    refine ⟨?_, ?_, ?_⟩
    · rw [sublistFilterMem hmsub hgnd, hm]
      rfl
    · intro f hf
      have hf0mem : f0 ∈ g := hmsub.subset (by rw [hm]; simp)
      rw [hrun, hm]
      show setKeep s f0.id f.id = _
      rw [setKeep]
      by_cases hid : f.id = f0.id
      · rw [if_pos hid, hid]
        simp
      · rw [if_neg hid, hflags f hf]
        simp [hid]
    · intro i hi
      have hf0mem : f0 ∈ g := hmsub.subset (by rw [hm]; simp)
      rw [hrun, hm]
      show setKeep s f0.id i = s i
      rw [setKeep, if_neg (fun he => hi f0 hf0mem he.symm)]



/-- C5 (witness): the pipeline theorem applied to a two-file group with an
empty algorithm list: both candidates survive and the first member of the
group is the one marked. -/
theorem C5_pipeline_witness :
    (wKeeper.rmPaths = [] ∧ (∀ f ∈ [wA, wB], (fun _ => false : KState) f.id = false) ∧
      ([wA, wB].map PFile.id).Nodup) ∧
    (([wA, wB].filter (fun f =>
        decide (f ∈ (runFuncs (wKeeper.algosFor [wA, wB]) ([wA, wB], false)).1))).head? =
      some wA ∧
    ∀ f ∈ [wA, wB],
      runGroup wKeeper [wA, wB] (fun _ => false) f.id = decide (f.id = wA.id)) := by
  refine ⟨⟨rfl, by decide, by decide⟩, ?_⟩
  have h := (C5_pipeline wKeeper [wA, wB] (fun _ => false) rfl (by decide)
    (fun fn hfn => absurd hfn (List.not_mem_nil fn)) (by decide)).2 wA [wB] rfl
  exact ⟨h.1, h.2.1⟩


/-! ## Claim C9: sanitizer frame property -/

lemma removedAfterStats_eq_rule12 (matchp : SFile → SFile → Bool) (ms : Nat)
    (g : List SFile) : removedAfterStats matchp ms g = rule12Removed matchp ms g := by
  by_cases hms : ms ≠ 0
  · rw [removedAfterStats, if_pos hms, rule12Removed]
    refine List.filter_congr (fun i hi => ?_)
    have hin : i < g.length := List.mem_range.mp hi
    rw [Bool.eq_iff_iff]
    simp only [Bool.or_eq_true, decide_eq_true_eq, Bool.and_eq_true, Bool.not_eq_true',
      List.mem_filter, List.mem_range, removedMissing, getMatches, failsThreshold,
      List.any_eq_true, List.all_eq_true]
    constructor
    · rintro (⟨-, hex⟩ | hnk)
      · exact Or.inl hex
      · by_cases hex : (fileAt g i).ex = false
        · exact Or.inl hex
        · refine Or.inr ⟨hms, fun j hj => ?_⟩
          by_cases hji : j = i
          · exact Or.inl (Or.inl hji)
          · by_cases hjex : (fileAt g j).ex = false
            · exact Or.inl (Or.inr hjex)
            · by_cases hmp : matchp (fileAt g i) (fileAt g j) = true
              · exact absurd ⟨hin, fun hc => hex hc.2, j, hj, ⟨hji, fun hc => hjex hc.2⟩, hmp⟩ hnk
              · exact Or.inr (by simpa using hmp)
    · rintro (hex | ⟨-, hall⟩)
      · exact Or.inl ⟨hin, hex⟩
      · refine Or.inr ?_
        rintro ⟨-, hni, j, hjn, ⟨hji, hjnm⟩, hmp⟩
        rcases hall j hjn with (h1 | h2) | h3
        · exact hji h1
        · exact hjnm ⟨hjn, h2⟩
        · rw [hmp] at h3
          cases h3
  · push_neg at hms
    subst hms
    rw [removedAfterStats, if_neg (by simp), rule12Removed, removedMissing]
    refine List.filter_congr (fun i hi => ?_)
    simp


lemma filterRangeMapGetD :
    ∀ (l : List SFile) (p : Nat → Bool),
      List.Sublist (((List.range l.length).filter p).map (fileAt l)) l := by
  intro l
  induction l with
  | nil => intro p; simp
  | cons a t ih =>
    intro p
    show List.Sublist (((List.range (t.length + 1)).filter p).map (fileAt (a :: t))) _
    rw [List.range_succ_eq_map, List.filter_cons]
    have hmap : ((List.map Nat.succ (List.range t.length)).filter p).map (fileAt (a :: t)) =
        ((List.range t.length).filter (p ∘ Nat.succ)).map (fileAt t) := by
      rw [List.filter_map, List.map_map]
      refine List.map_congr_left (fun i _ => ?_)
      show fileAt (a :: t) (Nat.succ i) = fileAt t i
      rw [fileAt, fileAt, List.getD_cons_succ]
    split_ifs with h0
    · rw [List.map_cons, hmap]
      show List.Sublist (fileAt (a :: t) 0 :: _) (a :: t)
      rw [fileAt, List.getD_cons_zero]
      exact List.Sublist.cons₂ a (ih (p ∘ Nat.succ))
    · rw [hmap]
      exact List.Sublist.cons a (ih (p ∘ Nat.succ))

/-- C9: frame property of `clean_data` (with `get_matches` modelled from
the spec): the surviving members of every group form a sublist of the
group (all other members unchanged, order kept); every removed index is
justified by a missing path, by failing the configured minimum-shared-stat
threshold against every remaining peer, or by the `clean_solo` rule firing
because rules (1)-(2) removed all but one member; a group is dropped
wholesale only when `clean_kept` holds and every survivor is kept, or when
no member survives; and every group `clean_data` returns is the survivor
list of some input group. -/
theorem C9_frame (matchp : SFile → SFile → Bool) (solo kept : Bool) (ms : Nat)
    (groups : List (List SFile)) (g : List SFile) (hg : g ∈ groups) :
    (∀ l, cleanGroup matchp solo kept ms g = some l → List.Sublist l g) ∧
    (∀ i, i ∈ removedFinal matchp solo ms g →
      (fileAt g i).ex = false ∨
      (ms ≠ 0 ∧ failsThreshold matchp g i = true) ∨
      (solo = true ∧ (rule12Removed matchp ms g).length + 1 = g.length)) ∧
    (cleanGroup matchp solo kept ms g = none →
      (kept = true ∧ (cleanSurvivors matchp solo ms g).all (fun f => f.keep) = true) ∨
      cleanSurvivors matchp solo ms g = []) ∧
    (∀ l ∈ cleanData matchp solo kept ms groups, ∃ g2 ∈ groups,
      cleanGroup matchp solo kept ms g2 = some l) := by
  refine ⟨?_, ?_, ?_, ?_⟩
  · intro l hl
    simp only [cleanGroup] at hl
    by_cases hdrop : (if kept then (cleanSurvivors matchp solo ms g).all (fun f => f.keep)
        else (cleanSurvivors matchp solo ms g).isEmpty) = true
    · rw [if_pos hdrop] at hl
      cases hl
    · rw [if_neg hdrop] at hl
      rw [← Option.some_inj.mp hl, cleanSurvivors]
      exact filterRangeMapGetD g _
  · intro i hi
    rw [removedFinal] at hi
    split_ifs at hi with hcond
    · rw [Bool.and_eq_true, decide_eq_true_eq] at hcond
      refine Or.inr (Or.inr ⟨hcond.1, ?_⟩)
      rw [← removedAfterStats_eq_rule12]
      exact hcond.2
    · rw [removedAfterStats_eq_rule12] at hi
      rw [rule12Removed, List.mem_filter] at hi
      have h2 := hi.2
      simp only [Bool.or_eq_true, Bool.and_eq_true, decide_eq_true_eq,
        Bool.not_eq_true'] at h2
      rcases h2 with hex | hrest
      · exact Or.inl hex
      · exact Or.inr (Or.inl hrest)
  · intro hnone
    simp only [cleanGroup] at hnone
    by_cases hdrop : (if kept then (cleanSurvivors matchp solo ms g).all (fun f => f.keep)
        else (cleanSurvivors matchp solo ms g).isEmpty) = true
    · cases kept with
      | true =>
        refine Or.inl ⟨rfl, ?_⟩
        simpa using hdrop
      | false =>
        refine Or.inr ?_
        rw [← List.isEmpty_iff]
        simpa using hdrop
    · rw [if_neg hdrop] at hnone
      cases hnone
  · intro l hl
    exact List.mem_filterMap.mp hl

/-- C9 (witness): the frame theorem applied to a single group whose first
member no longer exists on disk (no threshold, no solo/kept rules): index 0
is removed and is justified by the missing path. -/
theorem C9_frame_witness :
    (([⟨0, false, false⟩, ⟨1, true, false⟩, ⟨2, true, false⟩] : List SFile) ∈
      [[⟨0, false, false⟩, ⟨1, true, false⟩, ⟨2, true, false⟩]]) ∧
    0 ∈ removedFinal (fun _ _ => false) false 0
      [⟨0, false, false⟩, ⟨1, true, false⟩, ⟨2, true, false⟩] ∧
    ((fileAt [⟨0, false, false⟩, ⟨1, true, false⟩, ⟨2, true, false⟩] 0).ex = false ∨
      ((0 : Nat) ≠ 0 ∧ failsThreshold (fun _ _ => false)
        [⟨0, false, false⟩, ⟨1, true, false⟩, ⟨2, true, false⟩] 0 = true) ∨
      (false = true ∧ (rule12Removed (fun _ _ => false) 0
          [⟨0, false, false⟩, ⟨1, true, false⟩, ⟨2, true, false⟩]).length + 1 = 3)) :=
  ⟨by decide, by decide,
    (C9_frame (fun _ _ => false) false false 0
      [[⟨0, false, false⟩, ⟨1, true, false⟩, ⟨2, true, false⟩]]
      [⟨0, false, false⟩, ⟨1, true, false⟩, ⟨2, true, false⟩] (by decide)).2.1 0 (by decide)⟩


/-! ## Claim C7: scan-log replay -/

section ReadLogLemmas

variable {Stat H : Type} [DecidableEq Stat] [DecidableEq H]
variable (son : String → Option Stat) (sth : Stat → String → Option H)
variable (hdr : List Stat) (fromStrOk : Stat → Option String → Bool)

end ReadLogLemmas


section ReadLogLemmas2

variable {Stat H : Type} [DecidableEq Stat] [DecidableEq H]
variable (son : String → Option Stat) (sth : Stat → String → Option H)
variable (hdr : List Stat) (fromStrOk : Stat → Option String → Bool)

end ReadLogLemmas2


section DictLemmas

variable {Stat H : Type} [DecidableEq Stat] [DecidableEq H]

end DictLemmas


section ReadLogMain

variable {Stat H : Type} [DecidableEq Stat] [DecidableEq H]
variable (son : String → Option Stat) (sth : Stat → String → Option H)
variable (hdr : List Stat) (fromStrOk : Stat → Option String → Bool)

end ReadLogMain

lemma setKeep_le (s : KState) (i x : Nat) (h : s x = true) : setKeep s i x = true := by
  rw [setKeep]
  split_ifs <;> simp [h]

lemma markAll_le (fs : List PFile) : ∀ (s : KState) (x : Nat), s x = true →
    markAll fs s x = true := by
  induction fs with
  | nil => intro s x h; exact h
  | cons f t ih =>
    intro s x h
    show markAll t (setKeep s f.id) x = true
    exact ih _ x (setKeep_le s f.id x h)

lemma markAll_sets (fs : List PFile) : ∀ (s : KState) (f : PFile), f ∈ fs →
    markAll fs s f.id = true := by
  induction fs with
  | nil => intro s f h; exact absurd h (List.not_mem_nil f)
  | cons g t ih =>
    intro s f h
    rw [List.mem_cons] at h
    cases h with
    | inl he =>
      show markAll t (setKeep s g.id) f.id = true
      refine markAll_le t _ _ ?_
      rw [he, setKeep, if_pos rfl]
    | inr hm => exact ih _ f hm

lemma markAll_id (fs : List PFile) : ∀ (s : KState), (∀ f ∈ fs, s f.id = true) →
    markAll fs s = s := by
  induction fs with
  | nil => intro s _; rfl
  | cons f t ih =>
    intro s hall
    show markAll t (setKeep s f.id) = s
    have hsk : setKeep s f.id = s := by
      funext x
      rw [setKeep]
      split_ifs with hx
      · rw [hx, hall f (by simp)]
      · rfl
    rw [hsk]
    exact ih s (fun g hg => hall g (by simp [hg]))

lemma runGroup_le (k : Keeper) (g : List PFile) (s : KState) (x : Nat)
    (h : s x = true) : runGroup k g s x = true := by
  rw [runGroup]
  split_ifs with h1 h2
  · exact markAll_le _ s x h
  · exact h
  · cases hm : (runFuncs (k.algosFor g) (g, false)).1 with
    | nil => exact h
    | cons f t => exact setKeep_le s f.id x h

lemma runAll_le (k : Keeper) (gs : List (List PFile)) : ∀ (s : KState) (x : Nat),
    s x = true → runAll k gs s x = true := by
  induction gs with
  | nil => intro s x h; exact h
  | cons g rest ih =>
    intro s x h
    show runAll k rest (runGroup k g s) x = true
    exact ih _ x (runGroup_le k g s x h)

lemma runGroupFix (k : Keeper) (g : List PFile) (t u : KState)
    (h1 : ∀ x, t x = true → u x = true)
    (h2 : ∀ x, runGroup k g t x = true → u x = true) : runGroup k g u = u := by
  by_cases hrm : k.rmPaths.isEmpty = false
  · have ht : runGroup k g t = markAll (notRmPath k.rmPaths g) t := by
      rw [runGroup, if_pos hrm]
    rw [runGroup, if_pos hrm]
    refine markAll_id _ u (fun f hf => ?_)
    exact h2 f.id (by rw [ht]; exact markAll_sets _ t f hf)
  · rw [runGroup, if_neg hrm]
    by_cases hku : hasKeep u g = true
    · rw [if_pos hku]
    · have hkt : hasKeep t g = false := by
        cases hk : hasKeep t g with
        | false => rfl
        | true =>
          obtain ⟨f, hmem, hp⟩ := List.any_eq_true.mp hk
          exact absurd (List.any_eq_true.mpr ⟨f, hmem, h1 f.id hp⟩) hku
      have ht : runGroup k g t =
          match (runFuncs (k.algosFor g) (g, false)).1 with
          | [] => t
          | f :: _ => setKeep t f.id := by
        rw [runGroup, if_neg hrm, hkt]
        simp
      rw [if_neg hku]
      cases hm : (runFuncs (k.algosFor g) (g, false)).1 with
      | nil => rfl
      | cons f0 rest =>
        have hu0 : u f0.id = true := by
          refine h2 f0.id ?_
          rw [ht, hm]
          show setKeep t f0.id f0.id = true
          rw [setKeep, if_pos rfl]
        funext x
        show setKeep u f0.id x = u x
        rw [setKeep]
        split_ifs with hx
        · rw [hx, hu0]
        · rfl

lemma runAllFix (k : Keeper) : ∀ (gs : List (List PFile)) (t u : KState),
    (∀ x, t x = true → u x = true) →
    (∀ x, runAll k gs t x = true → u x = true) → runAll k gs u = u := by
  intro gs
  induction gs with
  | nil => intro t u _ _; rfl
  | cons g rest ih =>
    intro t u h1 h2
    have h2g : ∀ x, runGroup k g t x = true → u x = true := by
      intro x hx
      exact h2 x (runAll_le k rest _ x hx)
    have hfix : runGroup k g u = u := runGroupFix k g t u h1 h2g
    show runAll k rest (runGroup k g u) = u
    rw [hfix]
    exact ih (runGroup k g t) u h2g h2

/-- C6: running the keep engine over the same group list twice leaves every
keep flag exactly as after the first run: flags only ever go from false to
true, the rm_paths override re-marks the same files, a group that gained a
kept member is skipped by `has_keep`, and a group left without one
deterministically re-derives the same (empty) candidate outcome. -/
theorem C6_idempotent (k : Keeper) (gs : List (List PFile)) (s : KState) :
    runAll k gs (runAll k gs s) = runAll k gs s := by
  refine runAllFix k gs s (runAll k gs s) (fun x hx => runAll_le k gs s x hx)
    (fun x hx => hx)

end FileCompare
